import Mathlib

/-!
Verification development for the dependency-analyzer repository.

The definitions below are shallow embeddings of the TypeScript sources:
  * `src/core/pathUtils.ts`   — path canonicalization helpers,
  * `src/core/PathMapper.ts`  — the path mapping engine,
  * the tree visualizer / markdown report writer,
  * the worklist loop in the `analyze` command of `src/cli.ts`.

Strings are modelled by Lean `String` / `List Char`; all paths in the
repository are treated as sequences of Unicode scalar values (JavaScript
indexes UTF-16 code units, which agrees with this model on the ASCII
paths handled here).  External, effectful collaborators (the AI analysis
oracle, the binary type sniffer, the filesystem) are modelled as function
parameters, exactly at the call boundary the code gives them.
-/

namespace DepAgent

/-! ## Character helpers (embedding JS string primitives used by the code) -/

/-- Replacement performed by `inputPath.replace(/\\/g, "/")`. -/
def bslToSlash (c : Char) : Char := if c = '\\' then '/' else c

/-- Replacement performed by `s.replace(/\//g, "\\")`. -/
def slashToBsl (c : Char) : Char := if c = '/' then '\\' else c

/-- ASCII letter test, embedding the JS regex class `[A-Za-z]`. -/
def isAsciiAlpha (c : Char) : Bool :=
  ('A' ≤ c && c ≤ 'Z') || ('a' ≤ c && c ≤ 'z')

/-- ASCII lower-casing, embedding `String.prototype.toLowerCase` on the
single drive letter the code applies it to. -/
def lowerAscii (c : Char) : Char :=
  if 'A' ≤ c ∧ c ≤ 'Z' then Char.ofNat (c.toNat + 32) else c

/-- ASCII upper-casing, embedding `String.prototype.toUpperCase` on the
single drive letter the code applies it to. -/
def upperAscii (c : Char) : Char :=
  if 'a' ≤ c ∧ c ≤ 'z' then Char.ofNat (c.toNat - 32) else c

/-! ## `src/core/pathUtils.ts` -/

/-- Embedding of `normalized.replace(/\/+/g, "/")`: every maximal run of
forward slashes is collapsed to a single slash. -/
def collapseSlashes : List Char → List Char
  | [] => []
  | [c] => [c]
  | a :: b :: rest =>
    if a = '/' ∧ b = '/' then collapseSlashes (b :: rest)
    else a :: collapseSlashes (b :: rest)

/-- The `startsWith("/")` guard used by `toUnixPath`. -/
def ensureLeadingSlash (l : List Char) : List Char :=
  if l.head? = some '/' then l else '/' :: l

/-- The drive-letter / `./` / leading-slash branch chain of `toUnixPath`
(after backslash replacement, before slash collapsing).  In the `./`
branch the source takes `substring(1)` — which always starts with `/` —
and its subsequent `startsWith("/")` check is therefore vacuous. -/
def preNormalize (l : List Char) : List Char :=
  match l with
  | c :: ':' :: rest =>
    if isAsciiAlpha c then '/' :: lowerAscii c :: rest else ensureLeadingSlash l
  | l' =>
    match l' with
    | '.' :: '/' :: rest => '/' :: rest
    | _ => ensureLeadingSlash l'

/-- The `inputPath.endsWith("/") || inputPath.endsWith("\\")`. -/
def hadTrailingSep (l : List Char) : Bool :=
  l.getLast? = some '/' || l.getLast? = some '\\'

/-- Embedding of `toUnixPath` from `src/core/pathUtils.ts`, on character
lists. -/
def toUnixPathL (input : List Char) : List Char :=
  if input = [] then ['/']
  else
    let n1 := input.map bslToSlash
    let n2 := preNormalize n1
    let n3 := collapseSlashes n2
    if 1 < n3.length ∧ n3.getLast? = some '/' ∧ hadTrailingSep input = false then
      n3.dropLast
    else n3

/-- The `toUnixPath` from `src/core/pathUtils.ts`. -/
def toUnixPath (s : String) : String := ⟨toUnixPathL s.data⟩

/-- Two adjacent characters are not both `/` — the canonical form's
"no duplicate separators" invariant, read along the string via
`List.Chain'`. -/
def sepOk (a b : Char) : Prop := ¬(a = '/' ∧ b = '/')

/-- The trailing-separator clause of the spec's canonical-path invariant,
as literally stated: the result ends with a separator iff the original
input ended with `/` or `\` *and* the result is not the bare root. -/
abbrev claimedTrailingProp (s : String) : Prop :=
  ((toUnixPath s).data.getLast? = some '/' ↔
    ((s.data.getLast? = some '/' ∨ s.data.getLast? = some '\\')
      ∧ toUnixPath s ≠ "/"))

/-- The drive-letter clause of the spec's canonical-path invariant, as
literally stated: a drive-letter input is encoded as a lowercase single
path segment immediately after the leading `/` (so the output starts
with `/c/` or is exactly `/c`). -/
abbrev claimedDriveSegmentProp (s : String) : Prop :=
  ∀ (c : Char) (rest : List Char),
    s.data = c :: ':' :: rest → isAsciiAlpha c = true →
      ((toUnixPath s).data.take 3 = ['/', lowerAscii c, '/'] ∨
       (toUnixPath s).data = ['/', lowerAscii c])

/-- The `else` tail of the Windows branch of `fromUnixPath`: replace the
separators and prepend `.` when the result starts with a backslash. -/
def fromUnixWinElse (l : List Char) : List Char :=
  let windowsPath := l.map slashToBsl
  if windowsPath.head? = some '\\' then '.' :: windowsPath else windowsPath

/-- The regex test `/^[A-Za-z]:/` on a character list. -/
def hasDrivePrefix (l : List Char) : Bool :=
  match l with
  | c :: ':' :: _ => isAsciiAlpha c
  | _ => false

/-- The regex test `/^\\\\/` (a UNC prefix) on a character list. -/
def hasUNCPrefix (l : List Char) : Bool :=
  match l with
  | '\\' :: '\\' :: _ => true
  | _ => false

/-- The `/^\/[a-z]\//` branch of the Windows direction of `fromUnixPath`:
a Unix-style path with a lowercase drive segment is rewritten as
`X:\...`; anything else falls through to the separator rewrite. -/
def unixDriveSplit (l : List Char) : List Char :=
  match l with
  | '/' :: d :: '/' :: rest =>
    if 'a' ≤ d ∧ d ≤ 'z' then
      upperAscii d :: ':' :: ('/' :: rest).map slashToBsl
    else fromUnixWinElse l
  | _ => fromUnixWinElse l

/-- Embedding of the `process.platform === "win32"` branch of
`fromUnixPath` from `src/core/pathUtils.ts`, on character lists.
(On non-Windows platforms the function returns its input unchanged.) -/
def fromUnixPathWinL (l : List Char) : List Char :=
  if l = [] then ['.']
  else if hasDrivePrefix l || hasUNCPrefix l then l
  else unixDriveSplit l

/-- The Windows-targeted direction of `fromUnixPath`. -/
def fromUnixPathWin (s : String) : String := ⟨fromUnixPathWinL s.data⟩

/-- The `isWindowsPath` from `src/core/pathUtils.ts`: drive-letter prefix,
a backslash anywhere, or a UNC prefix. -/
def isWindowsPath (s : String) : Bool :=
  hasDrivePrefix s.data || s.data.contains '\\' || hasUNCPrefix s.data

/-- The `isUnixPath` from `src/core/pathUtils.ts`. -/
def isUnixPath (s : String) : Bool :=
  (s.data.head? = some '/') && !s.data.contains '\\' && !hasDrivePrefix s.data

/-! ## `src/core/PathMapper.ts` (the revision imported by `src/cli.ts`
and exercised by `src/core/PathMapper.test.ts`) -/

/-- The `PathMapping` from `src/core/types.ts`. -/
structure PathMapping where
  from_ : String
  to_ : String
deriving DecidableEq, Repr

/-- Kernel-friendly `startsWith` on strings (JS `String.prototype.startsWith`,
working on the character lists underlying the strings). -/
def startsWithS (s pre : String) : Bool := pre.data.isPrefixOf s.data

/-- The `normalizePath` of `PathMapper`: backslashes become forward slashes. -/
def normalizeSep (s : String) : String := ⟨s.data.map bslToSlash⟩

/-- The `isWindowsAbsolute` of `PathMapper`: `/^[a-zA-Z]:[\\\/]/` or `/^\\\\/`. -/
def isWindowsAbsolute (s : String) : Bool :=
  (match s.data with
   | c :: ':' :: x :: _ => isAsciiAlpha c && (x = '/' || x = '\\')
   | _ => false)
  || (match s.data with | '\\' :: '\\' :: _ => true | _ => false)

/-- Node's `path.isAbsolute`, which the mapper calls through the
platform-dependent `path` module: on POSIX a path is absolute iff it
starts with `/`; on Windows also with a backslash or a drive prefix
followed by a separator. -/
def pathIsAbsolute (isWin : Bool) (s : String) : Bool :=
  if isWin then
    startsWithS s "/" || startsWithS s "\\"
    || (match s.data with
        | c :: ':' :: x :: _ => isAsciiAlpha c && (x = '/' || x = '\\')
        | _ => false)
  else startsWithS s "/"

/-- Node's `path.sep` for the platform, as a character list. -/
def pathSepL (isWin : Bool) : List Char := if isWin then ['\\'] else ['/']

/-- The `makeRelative` of `PathMapper`. -/
def makeRelative (isWin : Bool) (input : String) : String :=
  if pathIsAbsolute isWin input then input
  else if ¬ startsWithS input "./" ∧ ¬ startsWithS input "../" then
    ⟨'.' :: '/' :: input.data⟩
  else input

/-- The per-rule match test of `PathMapper.map`: the separator-normalized
input equals the normalized `from`, or extends it by a `/`. -/
def ruleMatches (m : PathMapping) (input : String) : Bool :=
  let normalizedInput := (normalizeSep input).data
  let normalizedFrom := (normalizeSep m.from_).data
  normalizedInput = normalizedFrom
  || (normalizedFrom ++ ['/']).isPrefixOf normalizedInput

/-- The `mappedPath.split('/').join(path.sep)` — the platform-separator
rewrite `PathMapper.map` applies to a matched result. -/
def toPlatformSep (isWin : Bool) (l : List Char) : List Char :=
  List.intercalate (pathSepL isWin) (l.splitOn '/')

/-- The result `PathMapper.map` returns for the first matching rule:
`normalizedTo + normalizedInput.slice(normalizedFrom.length)` with
platform separators. -/
def applyRule (isWin : Bool) (m : PathMapping) (input : String) : String :=
  let normalizedInput := (normalizeSep input).data
  let normalizedFrom := (normalizeSep m.from_).data
  let normalizedTo := (normalizeSep m.to_).data
  let relativePart := normalizedInput.drop normalizedFrom.length
  ⟨toPlatformSep isWin (normalizedTo ++ relativePart)⟩

/-- The `for (const mapping of this.mappings)` loop of `PathMapper.map`:
first matching rule wins, later rules are never consulted. -/
def mapLoop (isWin : Bool) (input : String) : List PathMapping → Option String
  | [] => none
  | m :: rest =>
    if ruleMatches m input then some (applyRule isWin m input)
    else mapLoop isWin input rest

/-- The fallback of `PathMapper.map` when no mapping matches. -/
def mapFallback (isWin : Bool) (input : String) : String :=
  if startsWithS input "/" then input
  else if isWindowsAbsolute input || pathIsAbsolute isWin input then input
  else makeRelative isWin input

namespace PathMapper

/-- The `PathMapper.map` from `src/core/PathMapper.ts`. -/
def map (isWin : Bool) (mappings : List PathMapping) (input : String) : String :=
  match mapLoop isWin input mappings with
  | some r => r
  | none => mapFallback isWin input

/-- The `PathMapper` constructor: it only stores the mapping list and can
never throw, so it is total.  (`src/cli.ts` builds its mappers with
`new PathMapper(config.pathMappings)`.) -/
def construct (mappings : List PathMapping) : Except String (List PathMapping) :=
  Except.ok mappings

/-- The validation loop of the `fromConfig` factory in the alternate
`PathMapper` revision (the unnamed source file): it rejects a mapping
whose `from` is Windows-style before any mapper is produced.  The live
`src/core/PathMapper.ts` revision has no such check. -/
def fromConfigValidate (mappings : List PathMapping) :
    Except String (List PathMapping) :=
  match mappings.find? (fun m => isWindowsPath m.from_) with
  | some m =>
    Except.error ("Path mappings must use Unix-style paths. Found Windows-style path in 'from': " ++ m.from_)
  | none => Except.ok mappings

end PathMapper

/-- Test for `Except.error` without naming the message. -/
def exceptIsError : Except String (List PathMapping) → Bool
  | Except.error _ => true
  | Except.ok _ => false

/-! ## `resolveUnixPath` (`path.posix.resolve`, used by the worklist loop
to compute a unit's canonical absolute path from `{pwd, path}`) -/

/-- The right-to-left accumulation loop of Node's `path.posix.resolve`:
segments are prepended (each with a `/`) until an absolute one is found;
empty segments are skipped.  The argument list is given right-to-left and
already ends with the process working directory, which `resolve` falls
back to when no segment is absolute. -/
def resolveJoin : List String → List Char → List Char × Bool
  | [], acc => (acc, false)
  | s :: rest, acc =>
    if s.data = [] then resolveJoin rest acc
    else
      let acc' := s.data ++ '/' :: acc
      if s.data.head? = some '/' then (acc', true) else resolveJoin rest acc'

/-- One step of Node's `normalizeString`: resolve `.` and `..` segments
against an (innermost-first) stack of kept segments. -/
def normStep (allowAboveRoot : Bool) (acc : List (List Char)) (seg : List Char) :
    List (List Char) :=
  if seg = [] ∨ seg = ['.'] then acc
  else if seg = ['.', '.'] then
    match acc with
    | top :: rest =>
      if top = ['.', '.'] then (if allowAboveRoot then ['.', '.'] :: acc else acc)
      else rest
    | [] => if allowAboveRoot then [['.', '.']] else []
  else seg :: acc

/-- Node's `normalizeString`: drop empty and `.` segments, resolve `..`,
and rejoin with single slashes. -/
def normalizeString (allowAboveRoot : Bool) (l : List Char) : List Char :=
  List.intercalate ['/'] ((l.splitOn '/').foldl (normStep allowAboveRoot) []).reverse

/-- The `resolveUnixPath(pwd, p)` from `src/core/pathUtils.ts`, i.e.
`path.posix.resolve(pwd, p)`.  `cwd` is the process working directory the
resolver falls back to when neither argument is absolute. -/
def resolveUnixPath (cwd pwd p : String) : String :=
  let (joined, abs) := resolveJoin [p, pwd, cwd] []
  let norm := normalizeString (!abs) joined
  if abs then ⟨'/' :: norm⟩
  else if norm ≠ [] then ⟨norm⟩ else "."

/-! ## Analysis records and the worklist loop of `src/cli.ts` -/

/-- An entry of `readFiles` / `writeFiles` in an `AnalysisResult`. -/
structure FileEntry where
  path : String
  description : Option String
deriving DecidableEq, Repr

/-- An entry of `executeFiles` in an `AnalysisResult`. -/
structure ExecEntry where
  path : String
  pwd : String
  args : List String
  description : Option String
deriving DecidableEq, Repr

/-- An entry of `errors` in an `AnalysisResult`. -/
structure ErrorEntry where
  path : String
  pwd : String
  error : String
deriving DecidableEq, Repr

/-- The `AnalysisResult` — the schema-validated output of the analysis agent
consumed by the loop in `src/cli.ts`. -/
structure AnalysisResult where
  readFiles : List FileEntry
  writeFiles : List FileEntry
  executeFiles : List ExecEntry
  errors : List ErrorEntry
deriving DecidableEq, Repr

/-- An execute entry whose binary type has been determined
(`executablesWithType` in `src/cli.ts`). -/
structure ExecEntryT where
  path : String
  pwd : String
  args : List String
  description : Option String
  fileType : Option String
deriving DecidableEq, Repr

/-- A worklist item of the `processQueue` in `src/cli.ts`. -/
structure QueueItem where
  pwd : String
  path : String
  args : List String
  description : Option String
  fileType : Option String
deriving DecidableEq, Repr

/-- The `FileAction` from the visualizer. -/
inductive FileAction where
  | read
  | write
  | execute
deriving DecidableEq, Repr

/-- The `FileDependency` from the visualizer: one edge of the dependency
graph. -/
structure FileDependency where
  path : String
  fileType : Option String
  action : FileAction
deriving DecidableEq, Repr

/-- The dependency graph: insertion-ordered map from canonical absolute
path to edge list (`fileDependencies : Map<string, FileDependency[]>`). -/
abbrev DepsMap := List (String × List FileDependency)

/-- The `Map.prototype.get`. -/
def mapGet (m : DepsMap) (k : String) : Option (List FileDependency) :=
  match m.find? (fun p => p.1 = k) with
  | some p => some p.2
  | none => none

/-- The `Map.prototype.has`. -/
def mapHas (m : DepsMap) (k : String) : Bool :=
  (mapGet m k).isSome

/-- The `Map.prototype.set`: overwrite in place when the key exists (keeping
its insertion position), otherwise append. -/
def mapSet (m : DepsMap) (k : String) (v : List FileDependency) : DepsMap :=
  if mapHas m k then
    m.map (fun p => if p.1 = k then (k, v) else p)
  else m ++ [(k, v)]

/-- The `uniqueBy(array, "path")` from `src/cli.ts`, specialised to the key
all three call sites use: stable first-occurrence-wins deduplication. -/
def uniqueByPath (key : α → String) (seen : List String) : List α → List α
  | [] => []
  | x :: xs =>
    if seen.contains (key x) then uniqueByPath key seen xs
    else x :: uniqueByPath key (key x :: seen) xs

/-- The mutable state of the `analyze` action's worklist loop in
`src/cli.ts`.  `iterations` counts dequeues (the loop body runs once per
dequeue) and `trace` records, in order, the canonical absolute path of
every unit for which `agent.analyzeFile` is invoked; both are ghost
observers of the loop, not part of the TypeScript state. -/
structure LoopState where
  queue : List QueueItem
  processed : List String
  readFiles : List FileEntry
  writeFiles : List FileEntry
  execFiles : List ExecEntryT
  errors : List ErrorEntry
  deps : DepsMap
  iterations : Nat
  trace : List String
deriving Repr

/-- The worklist loop of the `analyze` action in `src/cli.ts`.

* `cwd` is the process working directory used by `path.posix.resolve`;
* `analyze` is the external oracle (`agent.analyzeFile`) — `none` models
  an unparseable / schema-invalid model reply, for which `analyzeFile`
  returns `undefined`;
* `detType` is `determineFileType` (filesystem + type-sniffing I/O),
  giving a discovered executable's `fileType`;
* `fuel` is `MAX_ITERATIONS` minus the dequeues already performed —
  the loop guard `processQueue.length > 0 && currentIteration++ <
  MAX_ITERATIONS` stops at whichever bound is hit first. -/
def runLoop (cwd : String) (analyze : QueueItem → Option AnalysisResult)
    (detType : String → String → Option String) :
    Nat → LoopState → LoopState
  | 0, st => st
  | fuel + 1, st =>
    match st.queue with
    | [] => st
    | nextFile :: rest =>
      let absolutePath := resolveUnixPath cwd nextFile.pwd nextFile.path
      if st.processed.contains absolutePath then
        -- Skip files that have already been processed.
        runLoop cwd analyze detType fuel
          { st with queue := rest, iterations := st.iterations + 1 }
      else
        let st1 := { st with
          queue := rest
          processed := absolutePath :: st.processed
          iterations := st.iterations + 1 }
        if nextFile.fileType.isSome then
          -- Binary file: skip its analysis (no edges, nothing enqueued).
          runLoop cwd analyze detType fuel st1
        else
          match analyze nextFile with
          | none =>
            -- `analyzeFile` returned `undefined`: no aggregates, no edges.
            runLoop cwd analyze detType fuel
              { st1 with
                deps := mapSet st1.deps absolutePath []
                trace := st1.trace ++ [absolutePath] }
          | some res =>
            let executablesWithType : List ExecEntryT :=
              res.executeFiles.map (fun f =>
                { path := f.path, pwd := f.pwd, args := f.args
                  description := f.description
                  fileType := detType f.pwd f.path })
            let dependencies : List FileDependency :=
              res.readFiles.map (fun f => ⟨f.path, none, FileAction.read⟩)
              ++ res.writeFiles.map (fun f => ⟨f.path, none, FileAction.write⟩)
              ++ executablesWithType.map (fun f =>
                   ⟨f.path, f.fileType, FileAction.execute⟩)
            runLoop cwd analyze detType fuel
              { st1 with
                queue := rest ++ executablesWithType.map (fun f =>
                  ⟨f.pwd, f.path, f.args, f.description, f.fileType⟩)
                readFiles := st1.readFiles ++ res.readFiles
                writeFiles := st1.writeFiles ++ res.writeFiles
                execFiles := st1.execFiles ++ executablesWithType
                errors := st1.errors ++ res.errors
                deps := mapSet st1.deps absolutePath dependencies
                trace := st1.trace ++ [absolutePath] }

/-- The initial loop state for a list of entry points. -/
def initState (entryPoints : List QueueItem) : LoopState :=
  ⟨entryPoints, [], [], [], [], [], [], 0, []⟩

/-! ## The tree visualizer (`visualizeDependencyGraph` and friends) -/

/-- Kernel-friendly `endsWith`. -/
def endsWithS (s suffix : String) : Bool := suffix.data.isSuffixOf s.data

/-- JS `s.slice(0, -n)`: drop the last `n` characters. -/
def dropRightS (s : String) (n : Nat) : String :=
  ⟨s.data.take (s.data.length - n)⟩

/-- Lexicographic (code-point) comparison of character lists. -/
def ltCharList : List Char → List Char → Bool
  | [], [] => false
  | [], _ :: _ => true
  | _ :: _, [] => false
  | a :: as, b :: bs =>
    if a < b then true else if b < a then false else ltCharList as bs

/-- Lexicographic (code-point) comparison of strings. -/
def ltS (a b : String) : Bool := ltCharList a.data b.data

/-- Stable insertion of an element into a list sorted by a string key:
the element goes after every earlier element whose key is not greater,
matching the stability of `Array.prototype.sort`. -/
def insertByKey (key : α → String) (x : α) : List α → List α
  | [] => [x]
  | y :: ys => if ltS (key x) (key y) then x :: y :: ys else y :: insertByKey key x ys

/-- Stable sort by a string key, modelling
`sort((a, b) => a.path.localeCompare(b.path))`.  `localeCompare` is
modelled as code-point comparison, with which it agrees on the
same-case ASCII paths this development evaluates. -/
def sortByKey (key : α → String) : List α → List α
  | [] => []
  | x :: xs => insertByKey key x (sortByKey key xs)

/-- The `getIcon` of `visualizeDependencyGraph`.  (A present `fileType` is
never the empty string — `determineFileType` yields a file extension or
`"unknown"` — so JS truthiness coincides with `Option.isSome`.) -/
def getIcon (action : FileAction) (fileType : Option String) : String :=
  match action with
  | FileAction.read => "[R]"
  | FileAction.write => "[W]"
  | FileAction.execute => if fileType.isSome then "[B]" else "[E]"

/-- The `newPrefix` computation inside `buildTree`'s dependency loop
(the source's final ternary has two identical branches, `"|__ "` either
way, and is folded here). -/
def childPrefix (ind : Nat) (pre : String) : String :=
  if ind = 0 then "|__ "
  else
    let parentPre := dropRightS pre 4
    if endsWithS parentPre "|__ " then dropRightS parentPre 4 ++ "    " ++ "|__ "
    else parentPre ++ "    " ++ "|__ "

/-- The `buildTree` of `visualizeDependencyGraph`, producing the pushed lines.
`anc` is the `ancestorPaths` set (as a list, consulted only through
membership).  The recursion is driven by `fuel`; every `fuel` at least
the number of graph keys outside `anc`, plus one, produces the same
output (proved below), which is the sense in which the source's
unbounded recursion terminates. -/
def buildTree (deps : DepsMap) :
    Nat → String → FileAction → Option String → Nat → String → List String →
    List String
  | 0, _, _, _, _, _, _ => []
  | fuel + 1, p, action, ft, ind, pre, anc =>
    let entry := pre ++ getIcon action ft ++ " " ++ p
    if anc.contains p then [entry ++ " [CIRCULAR]"]
    else
      let line := if ind = 0 then getIcon action ft ++ " " ++ p else entry
      match mapGet deps p with
      | none => [line]
      | some ds =>
        if ds = [] then [line]
        else
          let sorted := sortByKey FileDependency.path ds
          line :: sorted.enum.flatMap (fun pair =>
            buildTree deps fuel pair.2.path pair.2.action pair.2.fileType
              (ind + 1) (childPrefix ind pre) (p :: anc))

/-- The `topLevelPaths.forEach` loop of `visualizeDependencyGraph`:
roots that are not keys of the graph contribute nothing; a blank line is
pushed between rendered top-level trees (the index test uses the full
sorted root list's length). -/
def topLoop (fuel : Nat) (deps : DepsMap) (total : Nat) :
    Nat → List String → List String
  | _, [] => []
  | idx, p :: rest =>
    (if mapHas deps p then
      buildTree deps fuel p FileAction.execute none 0 "" []
      ++ (if idx < total - 1 then [""] else [])
    else [])
    ++ topLoop fuel deps total (idx + 1) rest

/-- The lines produced by `visualizeDependencyGraph(fileDependencies,
selectedPaths)`. -/
def visualizeLines (fuel : Nat) (deps : DepsMap) (selected : List String) :
    List String :=
  let tops := sortByKey id selected
  topLoop fuel deps tops.length 0 tops

/-- The `visualizeDependencyGraph`: the lines joined with newlines. -/
def visualizeDependencyGraph (fuel : Nat) (deps : DepsMap)
    (selected : List String) : String :=
  String.intercalate "\n" (visualizeLines fuel deps selected)

/-! ## The markdown overview (`toMarkdown`) and the report content -/

/-- A read/write entry's overview line.  (A present description is never
empty, so JS truthiness is `Option.isSome`.) -/
def renderFileLine (f : FileEntry) : String :=
  "- **" ++ f.path ++ "**"
  ++ (match f.description with | some d => " — " ++ d | none => "")

/-- An execute entry's overview line. -/
def renderExecLine (f : ExecEntryT) : String :=
  "- **" ++ f.path ++ "**"
  ++ (match f.fileType with | some t => " (" ++ t ++ ")" | none => "")
  ++ (match f.description with | some d => " — " ++ d | none => "")
  ++ (if f.args ≠ [] then " (args: " ++ String.intercalate " " f.args ++ ")"
      else "")

/-- An error entry's overview line. -/
def renderErrorLine (e : ErrorEntry) : String :=
  "- **" ++ e.path ++ "** — " ++ e.error

/-- The `renderTree` of the report writer (indentation level is always 0 at
its call sites): sort by path, render, join with newlines. -/
def renderGroup (key : α → String) (render : α → String) (l : List α) : String :=
  String.intercalate "\n" ((sortByKey key l).map render)

/-- The aggregate output assembled by the `analyze` action
(`FileAnalysisOutput`). -/
structure FileAnalysisOutput where
  readFiles : List FileEntry
  writeFiles : List FileEntry
  executeFiles : List ExecEntryT
  errors : List ErrorEntry
deriving DecidableEq, Repr

/-- The `toMarkdown(result, headingLevel)` from the report writer. -/
def toMarkdown (result : FileAnalysisOutput) (headingLevel : Nat) : String :=
  let hp : String := ⟨List.replicate headingLevel '#'⟩
  let sections : List String :=
    (if result.readFiles ≠ [] then
      [hp ++ " Read Files\n" ++ renderGroup FileEntry.path renderFileLine result.readFiles]
    else [])
    ++ (if result.writeFiles ≠ [] then
      [hp ++ " Written Files\n" ++ renderGroup FileEntry.path renderFileLine result.writeFiles]
    else [])
    ++ (let executables := result.executeFiles.filter (fun f => f.fileType.isNone)
        if executables ≠ [] then
          [hp ++ " Executables\n" ++ renderGroup ExecEntryT.path renderExecLine executables]
        else [])
    ++ (let binaries := result.executeFiles.filter (fun f => f.fileType.isSome)
        if binaries ≠ [] then
          [hp ++ " Binaries\n" ++ renderGroup ExecEntryT.path renderExecLine binaries]
        else [])
    ++ (if result.errors ≠ [] then
      [hp ++ " Errors\n" ++ renderGroup ErrorEntry.path renderErrorLine result.errors]
    else [])
  String.intercalate "\n\n" sections

/-- The `uniqueBy` post-processing the `analyze` action applies to the
aggregates before writing the report. -/
def finalizeOutput (st : LoopState) : FileAnalysisOutput :=
  ⟨uniqueByPath FileEntry.path [] st.readFiles,
   uniqueByPath FileEntry.path [] st.writeFiles,
   uniqueByPath ExecEntryT.path [] st.execFiles,
   st.errors⟩

/-- The document produced by `writeOutputFile` (its pure content; the
function also writes it to a timestamped file).  `entryPaths` is what the
CLI passes: `entryPoints.map((e) => e.path)` — the as-written entry
paths, not their resolved canonical forms. -/
def reportContent (out : FileAnalysisOutput) (deps : DepsMap)
    (entryPaths : List String) (fuel : Nat) : String :=
  String.intercalate "\n"
    ["# Analysis Result", "", "## Overview", toMarkdown out 3, "",
     "## Dependency Graph", visualizeDependencyGraph fuel deps entryPaths]

/-- The number of graph keys (with multiplicity) not yet on the ancestor
path — the measure that bounds `buildTree`'s recursion depth. -/
def graphBound (deps : DepsMap) (anc : List String) : Nat :=
  ((deps.map Prod.fst).filter (fun k => ! anc.contains k)).length

/-! ## Concrete scenarios used by individual claims -/

/-- An oracle in which two distinct parents `/pa` and `/pb` both report
an execute dependency on the same child `/c`. -/
def twoParentOracle : QueueItem → Option AnalysisResult := fun item =>
  if item.path = "/pa" ∨ item.path = "/pb" then
    some ⟨[], [], [⟨"/c", "/", [], none⟩], []⟩
  else some ⟨[], [], [], []⟩

/-- The run of the worklist loop on entry points `/pa` and `/pb` under
`twoParentOracle`, with `MAX_ITERATIONS = 100`. -/
def twoParentRun : LoopState :=
  runLoop "/" twoParentOracle (fun _ _ => none) 100
    (initState [⟨"/", "/pa", [], none, none⟩, ⟨"/", "/pb", [], none, none⟩])

/-- An oracle whose analysis of `/x` fails (the model reply was
unparseable, so `analyzeFile` returned `undefined`), while `/y` analyzes
successfully with an empty record. -/
def failingOracle : QueueItem → Option AnalysisResult := fun item =>
  if item.path = "/x" then none else some ⟨[], [], [], []⟩

/-- The run of the worklist loop on entry points `/x` and `/y` under
`failingOracle`. -/
def failingRun : LoopState :=
  runLoop "/" failingOracle (fun _ _ => none) 100
    (initState [⟨"/", "/x", [], none, none⟩, ⟨"/", "/y", [], none, none⟩])

/-- An unbounded oracle: every unit whose path is shorter than 5
characters executes one fresh, longer path, so from entry `/e` the
discovered graph is the chain `/e → /ea → /eaa → /eaaa`. -/
def chainOracle : QueueItem → Option AnalysisResult := fun item =>
  if 5 ≤ item.path.length then some ⟨[], [], [], []⟩
  else some ⟨[], [], [⟨item.path ++ "a", "/", [], none⟩], []⟩

/-- A truncated run: with an iteration cap of 3 the chain run stops with
`/eaaa` still enqueued. -/
def truncRun : LoopState :=
  runLoop "/" chainOracle (fun _ _ => none) 3
    (initState [⟨"/", "/e", [], none, none⟩])

/-- A complete run of the same configuration: with a cap of 4 the chain
drains (the analysis of `/eaaa` discovers nothing new). -/
def fullRun : LoopState :=
  runLoop "/" chainOracle (fun _ _ => none) 4
    (initState [⟨"/", "/e", [], none, none⟩])

/-- A cyclic dependency graph: `/a → /b` and `/b → /a`. -/
def cycleDeps : DepsMap :=
  [("/a", [⟨"/b", none, FileAction.execute⟩]),
   ("/b", [⟨"/a", none, FileAction.execute⟩])]

/-- A run whose single entry point is written as the relative path `x`
with pwd `/p`: its graph key is the resolved `/p/x`, while the CLI hands
the as-written `x` to the renderer as the root. -/
def relEntryRun : LoopState :=
  runLoop "/" (fun _ => some ⟨[], [], [], []⟩) (fun _ _ => none) 100
    (initState [⟨"/p", "x", [], none, none⟩])

end DepAgent

namespace DepAgent

/-! ## Lemmas about the worklist loop -/

theorem runLoop_nil (cwd : String) (analyze : QueueItem → Option AnalysisResult)
    (detType : String → String → Option String) (n : Nat) (st : LoopState)
    (hq : st.queue = []) :
    runLoop cwd analyze detType (n + 1) st = st := by
  rw [runLoop, hq]

theorem runLoop_dup (cwd : String) (analyze : QueueItem → Option AnalysisResult)
    (detType : String → String → Option String) (n : Nat) (st : LoopState)
    (nextFile : QueueItem) (rest : List QueueItem)
    (hq : st.queue = nextFile :: rest)
    (hdup : st.processed.contains (resolveUnixPath cwd nextFile.pwd nextFile.path) = true) :
    runLoop cwd analyze detType (n + 1) st =
      runLoop cwd analyze detType n
        { st with queue := rest, iterations := st.iterations + 1 } := by
  rw [runLoop, hq]
  simp only [hdup, eq_self_iff_true, if_true]

theorem runLoop_binary (cwd : String) (analyze : QueueItem → Option AnalysisResult)
    (detType : String → String → Option String) (n : Nat) (st : LoopState)
    (nextFile : QueueItem) (rest : List QueueItem)
    (hq : st.queue = nextFile :: rest)
    (hdup : st.processed.contains (resolveUnixPath cwd nextFile.pwd nextFile.path) = false)
    (hft : nextFile.fileType.isSome) :
    runLoop cwd analyze detType (n + 1) st =
      runLoop cwd analyze detType n
        { st with queue := rest
                  processed := resolveUnixPath cwd nextFile.pwd nextFile.path :: st.processed
                  iterations := st.iterations + 1 } := by
  rw [runLoop, hq]
  simp only [hdup, Bool.false_eq_true, if_false, hft, eq_self_iff_true, if_true]

theorem runLoop_failed (cwd : String) (analyze : QueueItem → Option AnalysisResult)
    (detType : String → String → Option String) (n : Nat) (st : LoopState)
    (nextFile : QueueItem) (rest : List QueueItem)
    (hq : st.queue = nextFile :: rest)
    (hdup : st.processed.contains (resolveUnixPath cwd nextFile.pwd nextFile.path) = false)
    (hft : nextFile.fileType = none)
    (han : analyze nextFile = none) :
    runLoop cwd analyze detType (n + 1) st =
      runLoop cwd analyze detType n
        { st with queue := rest
                  processed := resolveUnixPath cwd nextFile.pwd nextFile.path :: st.processed
                  iterations := st.iterations + 1
                  deps := mapSet st.deps (resolveUnixPath cwd nextFile.pwd nextFile.path) []
                  trace := st.trace ++ [resolveUnixPath cwd nextFile.pwd nextFile.path] } := by
  rw [runLoop, hq]
  simp only [hdup, Bool.false_eq_true, if_false, hft, Option.isSome_none, han]

theorem runLoop_analyzed (cwd : String) (analyze : QueueItem → Option AnalysisResult)
    (detType : String → String → Option String) (n : Nat) (st : LoopState)
    (nextFile : QueueItem) (rest : List QueueItem) (res : AnalysisResult)
    (hq : st.queue = nextFile :: rest)
    (hdup : st.processed.contains (resolveUnixPath cwd nextFile.pwd nextFile.path) = false)
    (hft : nextFile.fileType = none)
    (han : analyze nextFile = some res) :
    runLoop cwd analyze detType (n + 1) st =
      runLoop cwd analyze detType n
        (let absolutePath := resolveUnixPath cwd nextFile.pwd nextFile.path
         let executablesWithType : List ExecEntryT :=
           res.executeFiles.map (fun f =>
             { path := f.path, pwd := f.pwd, args := f.args
               description := f.description
               fileType := detType f.pwd f.path })
         { st with
            queue := rest ++ executablesWithType.map (fun f =>
              ⟨f.pwd, f.path, f.args, f.description, f.fileType⟩)
            processed := absolutePath :: st.processed
            iterations := st.iterations + 1
            readFiles := st.readFiles ++ res.readFiles
            writeFiles := st.writeFiles ++ res.writeFiles
            execFiles := st.execFiles ++ executablesWithType
            errors := st.errors ++ res.errors
            deps := mapSet st.deps absolutePath
              (res.readFiles.map (fun f => ⟨f.path, none, FileAction.read⟩)
               ++ res.writeFiles.map (fun f => ⟨f.path, none, FileAction.write⟩)
               ++ executablesWithType.map (fun f =>
                    ⟨f.path, f.fileType, FileAction.execute⟩))
            trace := st.trace ++ [absolutePath] }) := by
  rw [runLoop, hq]
  simp only [hdup, Bool.false_eq_true, if_false, hft, Option.isSome_none, han]

/-- Whenever the loop exits with a non-empty worklist, it performed
exactly `fuel` dequeues (the iteration cap, not queue exhaustion, ended
the run). -/
theorem runLoop_iterations_of_queue_ne_nil (cwd : String)
    (analyze : QueueItem → Option AnalysisResult)
    (detType : String → String → Option String) :
    ∀ (fuel : Nat) (st : LoopState),
      (runLoop cwd analyze detType fuel st).queue ≠ [] →
      (runLoop cwd analyze detType fuel st).iterations = st.iterations + fuel := by
  intro fuel
  induction fuel with
  | zero => intro st _; simp [runLoop]
  | succ n ih =>
    intro st hne
    cases hq : st.queue with
    | nil =>
      rw [runLoop_nil cwd analyze detType n st hq] at hne
      exact absurd hq hne
    | cons nextFile rest =>
      cases hdup : st.processed.contains (resolveUnixPath cwd nextFile.pwd nextFile.path) with
      | true =>
        rw [runLoop_dup cwd analyze detType n st nextFile rest hq hdup] at hne ⊢
        rw [ih _ hne]
        show st.iterations + 1 + n = st.iterations + (n + 1)
        omega
      | false =>
        cases hft : nextFile.fileType with
        | some t =>
          rw [runLoop_binary cwd analyze detType n st nextFile rest hq hdup (by simp [hft])] at hne ⊢
          rw [ih _ hne]
          show st.iterations + 1 + n = st.iterations + (n + 1)
          omega
        | none =>
          cases han : analyze nextFile with
          | none =>
            rw [runLoop_failed cwd analyze detType n st nextFile rest hq hdup hft han] at hne ⊢
            rw [ih _ hne]
            show st.iterations + 1 + n = st.iterations + (n + 1)
            omega
          | some res =>
            rw [runLoop_analyzed cwd analyze detType n st nextFile rest res hq hdup hft han] at hne ⊢
            rw [ih _ hne]
            show st.iterations + 1 + n = st.iterations + (n + 1)
            omega

/-- The loop never performs more than `fuel` dequeues. -/
theorem runLoop_iterations_le (cwd : String)
    (analyze : QueueItem → Option AnalysisResult)
    (detType : String → String → Option String) :
    ∀ (fuel : Nat) (st : LoopState),
      (runLoop cwd analyze detType fuel st).iterations ≤ st.iterations + fuel := by
  intro fuel
  induction fuel with
  | zero => intro st; simp [runLoop]
  | succ n ih =>
    intro st
    cases hq : st.queue with
    | nil => rw [runLoop_nil cwd analyze detType n st hq]; omega
    | cons nextFile rest =>
      cases hdup : st.processed.contains (resolveUnixPath cwd nextFile.pwd nextFile.path) with
      | true =>
        rw [runLoop_dup cwd analyze detType n st nextFile rest hq hdup]
        calc (runLoop cwd analyze detType n _).iterations
            ≤ st.iterations + 1 + n := ih _
          _ ≤ st.iterations + (n + 1) := by omega
      | false =>
        cases hft : nextFile.fileType with
        | some t =>
          rw [runLoop_binary cwd analyze detType n st nextFile rest hq hdup (by simp [hft])]
          calc (runLoop cwd analyze detType n _).iterations
              ≤ st.iterations + 1 + n := ih _
            _ ≤ st.iterations + (n + 1) := by omega
        | none =>
          cases han : analyze nextFile with
          | none =>
            rw [runLoop_failed cwd analyze detType n st nextFile rest hq hdup hft han]
            calc (runLoop cwd analyze detType n _).iterations
                ≤ st.iterations + 1 + n := ih _
              _ ≤ st.iterations + (n + 1) := by omega
          | some res =>
            rw [runLoop_analyzed cwd analyze detType n st nextFile rest res hq hdup hft han]
            calc (runLoop cwd analyze detType n _).iterations
                ≤ st.iterations + 1 + n := ih _
              _ ≤ st.iterations + (n + 1) := by omega

/-- The analysis trace stays duplicate-free: `agent.analyzeFile` is never
invoked twice for the same canonical absolute path, because every
analyzed path is in `processedFiles` and dequeued paths found there are
skipped. -/
theorem runLoop_trace_nodup (cwd : String)
    (analyze : QueueItem → Option AnalysisResult)
    (detType : String → String → Option String) :
    ∀ (fuel : Nat) (st : LoopState),
      st.trace.Nodup → (∀ p ∈ st.trace, p ∈ st.processed) →
      (runLoop cwd analyze detType fuel st).trace.Nodup := by
  intro fuel
  induction fuel with
  | zero => intro st h1 _; simpa [runLoop] using h1
  | succ n ih =>
    intro st h1 h2
    cases hq : st.queue with
    | nil => rw [runLoop_nil cwd analyze detType n st hq]; exact h1
    | cons nextFile rest =>
      cases hdup : st.processed.contains (resolveUnixPath cwd nextFile.pwd nextFile.path) with
      | true =>
        rw [runLoop_dup cwd analyze detType n st nextFile rest hq hdup]
        exact ih _ h1 h2
      | false =>
        have habs : resolveUnixPath cwd nextFile.pwd nextFile.path ∉ st.processed := by
          simpa using hdup
        have htr : resolveUnixPath cwd nextFile.pwd nextFile.path ∉ st.trace :=
          fun hmem => habs (h2 _ hmem)
        have h1' : (st.trace ++ [resolveUnixPath cwd nextFile.pwd nextFile.path]).Nodup := by
          simp [List.nodup_append, h1, htr]
        have h2' : ∀ p ∈ st.trace ++ [resolveUnixPath cwd nextFile.pwd nextFile.path],
            p ∈ resolveUnixPath cwd nextFile.pwd nextFile.path :: st.processed := by
          intro p hp
          rcases List.mem_append.mp hp with hp | hp
          · exact List.mem_cons_of_mem _ (h2 p hp)
          · simp only [List.mem_singleton] at hp
            simp [hp]
        cases hft : nextFile.fileType with
        | some t =>
          rw [runLoop_binary cwd analyze detType n st nextFile rest hq hdup (by simp [hft])]
          refine ih _ h1 ?_
          intro p hp
          exact List.mem_cons_of_mem _ (h2 p hp)
        | none =>
          cases han : analyze nextFile with
          | none =>
            rw [runLoop_failed cwd analyze detType n st nextFile rest hq hdup hft han]
            exact ih _ h1' h2'
          | some res =>
            rw [runLoop_analyzed cwd analyze detType n st nextFile rest res hq hdup hft han]
            exact ih _ h1' h2'

/-- Claim C1 (confirmed): in every run of the graph-building loop each
canonical absolute path is analyzed at most once (the trace of `analyze`
invocations has no duplicates), and in the concrete two-parent scenario —
`/pa` and `/pb` both reporting the child `/c` — the child is analyzed
exactly once while both parents' edge lists contain an execute edge to
it. -/
theorem claim_C1_analyzed_at_most_once :
    (∀ (cwd : String) (analyze : QueueItem → Option AnalysisResult)
       (detType : String → String → Option String) (fuel : Nat)
       (entryPoints : List QueueItem),
       (runLoop cwd analyze detType fuel (initState entryPoints)).trace.Nodup)
    ∧ twoParentRun.trace = ["/pa", "/pb", "/c"]
    ∧ twoParentRun.trace.count "/c" = 1
    ∧ mapGet twoParentRun.deps "/pa" = some [⟨"/c", none, FileAction.execute⟩]
    ∧ mapGet twoParentRun.deps "/pb" = some [⟨"/c", none, FileAction.execute⟩] := by
  refine ⟨?_, by decide, by decide, by decide, by decide⟩
  intro cwd analyze detType fuel entryPoints
  exact runLoop_trace_nodup cwd analyze detType fuel (initState entryPoints)
    (by simp [initState]) (by simp [initState])

/-- Claim C3, counterexample to "the truncation is observable in the
final report": `truncRun` stops at the iteration cap (3 dequeues) with
`/eaaa` still enqueued, `fullRun` (cap 4, same configuration) drains its
worklist completely, yet the two runs produce character-for-character
identical reports — no consumer of the report can detect that `truncRun`
was truncated. -/
theorem claim_C3_counterexample :
    truncRun.iterations = 3 ∧ truncRun.queue ≠ [] ∧
    fullRun.iterations = 4 ∧ fullRun.queue = [] ∧
    reportContent (finalizeOutput truncRun) truncRun.deps ["/e"] 10
      = reportContent (finalizeOutput fullRun) fullRun.deps ["/e"] 10 := by
  refine ⟨by decide, by decide, by decide, by decide, by decide⟩

/-- Claim C3 (corrected): the worklist loop performs exactly
`maxIterations` dequeues whenever it exits with a non-empty worklist, and
never more than `maxIterations` dequeues; but the cap leaves no mark in
the produced report — a truncated run (`truncRun`) and a complete run
(`fullRun`) emit identical report content, so the truncation is *not*
observable to the report's consumer. -/
theorem claim_C3_cap_exact_but_unobservable :
    (∀ (cwd : String) (analyze : QueueItem → Option AnalysisResult)
       (detType : String → String → Option String) (fuel : Nat) (st : LoopState),
       (runLoop cwd analyze detType fuel st).queue ≠ [] →
       (runLoop cwd analyze detType fuel st).iterations = st.iterations + fuel)
    ∧ (∀ (cwd : String) (analyze : QueueItem → Option AnalysisResult)
        (detType : String → String → Option String) (fuel : Nat) (st : LoopState),
        (runLoop cwd analyze detType fuel st).iterations ≤ st.iterations + fuel)
    ∧ truncRun.queue ≠ []
    ∧ fullRun.queue = []
    ∧ reportContent (finalizeOutput truncRun) truncRun.deps ["/e"] 10
        = reportContent (finalizeOutput fullRun) fullRun.deps ["/e"] 10 := by
  exact ⟨runLoop_iterations_of_queue_ne_nil, runLoop_iterations_le,
    by decide, by decide, by decide⟩

/-- Witness for C3: the exact-cap clause applied to the concrete
truncated run. -/
theorem claim_C3_witness :
    truncRun.queue ≠ [] ∧
    truncRun.iterations
      = (initState [⟨"/", "/e", [], none, none⟩]).iterations + 3 :=
  ⟨by decide,
   claim_C3_cap_exact_but_unobservable.1 "/" chainOracle (fun _ _ => none) 3
     (initState [⟨"/", "/e", [], none, none⟩]) (by decide)⟩

/-- Claim C6, counterexample to "an error entry is appended": in
`failingRun` the analysis of `/x` fails (the oracle yields no record,
as `analyzeFile` does for an unparseable reply), the node contributes
zero edges and the traversal continues with `/y` — but the aggregate
error list stays empty: no error entry is appended. -/
theorem claim_C6_counterexample :
    failingOracle ⟨"/", "/x", [], none, none⟩ = none ∧
    failingRun.trace = ["/x", "/y"] ∧
    mapGet failingRun.deps "/x" = some [] ∧
    failingRun.errors = [] := by
  refine ⟨by decide, by decide, by decide, by decide⟩

/-- Claim C6 (corrected): when a dequeued unit's analysis yields no
record, the node is marked processed, contributes zero edges (its graph
entry is the empty list) and the loop continues with the rest of the
worklist — but the aggregate error list is left exactly as it was; no
error entry is appended.  (Error entries reach the aggregate only inside
a successfully parsed record's `errors` field, e.g. when the local file
could not be read; and an exception thrown by the analysis call itself is
not handled by the loop at all.) -/
theorem claim_C6_failed_analysis_no_error_entry :
    (∀ (cwd : String) (analyze : QueueItem → Option AnalysisResult)
       (detType : String → String → Option String) (n : Nat) (st : LoopState)
       (nextFile : QueueItem) (rest : List QueueItem),
       st.queue = nextFile :: rest →
       st.processed.contains (resolveUnixPath cwd nextFile.pwd nextFile.path) = false →
       nextFile.fileType = none →
       analyze nextFile = none →
       runLoop cwd analyze detType (n + 1) st =
         runLoop cwd analyze detType n
           { st with queue := rest
                     processed := resolveUnixPath cwd nextFile.pwd nextFile.path :: st.processed
                     iterations := st.iterations + 1
                     deps := mapSet st.deps (resolveUnixPath cwd nextFile.pwd nextFile.path) []
                     trace := st.trace ++ [resolveUnixPath cwd nextFile.pwd nextFile.path] })
    ∧ failingRun.errors = []
    ∧ failingRun.deps = [("/x", []), ("/y", [])]
    ∧ failingRun.trace = ["/x", "/y"] := by
  refine ⟨?_, by decide, by decide, by decide⟩
  intro cwd analyze detType n st nextFile rest hq hdup hft han
  exact runLoop_failed cwd analyze detType n st nextFile rest hq hdup hft han

/-- Witness for C6: the failed-analysis step applied to the concrete
state of `failingRun`'s first dequeue. -/
theorem claim_C6_witness :
    runLoop "/" failingOracle (fun _ _ => none) 1
        (initState [⟨"/", "/x", [], none, none⟩, ⟨"/", "/y", [], none, none⟩]) =
      runLoop "/" failingOracle (fun _ _ => none) 0
        { initState [⟨"/", "/x", [], none, none⟩, ⟨"/", "/y", [], none, none⟩] with
          queue := [⟨"/", "/y", [], none, none⟩]
          processed := ["/x"]
          iterations := 1
          deps := mapSet [] "/x" []
          trace := ["/x"] } := by
  have h := claim_C6_failed_analysis_no_error_entry.1 "/" failingOracle
    (fun _ _ => none) 0
    (initState [⟨"/", "/x", [], none, none⟩, ⟨"/", "/y", [], none, none⟩])
    ⟨"/", "/x", [], none, none⟩ [⟨"/", "/y", [], none, none⟩]
    (by decide) (by decide) (by decide) (by decide)
  exact h

/-! ## Lemmas about the path mapper -/

theorem mapLoop_eq_none (isWin : Bool) (input : String) :
    ∀ mappings : List PathMapping,
      (∀ m ∈ mappings, ruleMatches m input = false) →
      mapLoop isWin input mappings = none := by
  intro mappings
  induction mappings with
  | nil => intro _; rfl
  | cons m rest ih =>
    intro h
    have hm : ruleMatches m input = false := h m (List.mem_cons_self m rest)
    rw [mapLoop, hm]
    simp only [Bool.false_eq_true, if_false]
    exact ih (fun m' hm' => h m' (List.mem_cons_of_mem m hm'))

theorem map_of_no_match (isWin : Bool) (input : String)
    (mappings : List PathMapping)
    (h : ∀ m ∈ mappings, ruleMatches m input = false) :
    PathMapper.map isWin mappings input = mapFallback isWin input := by
  unfold PathMapper.map
  rw [mapLoop_eq_none isWin input mappings h]

/-- Claim C2 (confirmed): mapping rules are applied strictly in list
order with the first match winning — the head rule, once it matches,
determines the result no matter what later (even more specific) rules
say — and on the spec's concrete example the broader first rule wins. -/
theorem claim_C2_first_match_wins :
    PathMapper.map false [⟨"/app", "./a1"⟩, ⟨"/app/data", "./a2"⟩] "/app/data/f"
      = "./a1/data/f"
    ∧ (∀ (isWin : Bool) (m : PathMapping) (rest : List PathMapping) (input : String),
        ruleMatches m input = true →
        PathMapper.map isWin (m :: rest) input = applyRule isWin m input) := by
  refine ⟨by decide, ?_⟩
  intro isWin m rest input h
  unfold PathMapper.map mapLoop
  simp only [h, eq_self_iff_true, if_true]

/-- Witness for C2: the head-match clause applied to the spec's example. -/
theorem claim_C2_witness :
    ruleMatches ⟨"/app", "./a1"⟩ "/app/data/f" = true ∧
    PathMapper.map false [⟨"/app", "./a1"⟩, ⟨"/app/data", "./a2"⟩] "/app/data/f"
      = applyRule false ⟨"/app", "./a1"⟩ "/app/data/f" :=
  ⟨by decide,
   claim_C2_first_match_wins.2 false ⟨"/app", "./a1"⟩ [⟨"/app/data", "./a2"⟩]
     "/app/data/f" (by decide)⟩

/-- Claim C4, counterexample: the bare relative input `file.txt` matches
no rule of the empty mapping list, yet `map` returns `./file.txt`, not
the original input unchanged (`PathMapper.test.ts` expects exactly
this). -/
theorem claim_C4_counterexample :
    PathMapper.map false [] "file.txt" = "./file.txt"
    ∧ ("./file.txt" : String) ≠ "file.txt" := by
  refine ⟨by decide, by decide⟩

/-- Claim C4 (corrected): when no mapping rule matches, absolute inputs
(Unix-style, Windows-style, or platform-absolute) are returned unchanged,
and so are relative inputs already starting with `./` or `../`; but every
other relative input is returned with `./` prepended rather than
unchanged — `file.txt` concretely maps to `./file.txt`. -/
theorem claim_C4_unmatched_behaviour :
    (∀ (isWin : Bool) (mappings : List PathMapping) (input : String),
       (∀ m ∈ mappings, ruleMatches m input = false) →
       ((startsWithS input "/" = true ∨ isWindowsAbsolute input = true ∨
           pathIsAbsolute isWin input = true →
         PathMapper.map isWin mappings input = input)
        ∧ (startsWithS input "./" = true ∨ startsWithS input "../" = true →
           PathMapper.map isWin mappings input = input)
        ∧ (startsWithS input "/" = false → isWindowsAbsolute input = false →
           pathIsAbsolute isWin input = false →
           startsWithS input "./" = false → startsWithS input "../" = false →
           PathMapper.map isWin mappings input = "./" ++ input)))
    ∧ PathMapper.map false [] "file.txt" = "./file.txt" := by
  refine ⟨?_, by decide⟩
  intro isWin mappings input h
  rw [map_of_no_match isWin input mappings h]
  refine ⟨?_, ?_, ?_⟩
  · rintro (hs | hw | hp)
    · simp [mapFallback, hs]
    · simp [mapFallback, hw]
    · simp [mapFallback, hp]
  · rintro (hs | hs)
    · obtain ⟨t, hdata⟩ : ∃ t, input.data = '.' :: '/' :: t := by
        have := List.isPrefixOf_iff_prefix.mp hs
        rcases this with ⟨t, ht⟩
        exact ⟨t, ht.symm⟩
      simp [mapFallback, makeRelative, pathIsAbsolute, isWindowsAbsolute,
        startsWithS, hdata, List.isPrefixOf]
    · obtain ⟨t, hdata⟩ : ∃ t, input.data = '.' :: '.' :: '/' :: t := by
        have := List.isPrefixOf_iff_prefix.mp hs
        rcases this with ⟨t, ht⟩
        exact ⟨t, ht.symm⟩
      simp [mapFallback, makeRelative, pathIsAbsolute, isWindowsAbsolute,
        startsWithS, hdata, List.isPrefixOf]
  · intro h1 h2 h3 h4 h5
    unfold mapFallback makeRelative
    rw [h1, h2, h3, h4, h5]
    simp only [Bool.false_eq_true, if_false, Bool.or_self, not_false_eq_true,
      and_self, if_true]
    rfl

/-- Witness for C4: the unchanged-absolute clause at a concrete unmapped
absolute path, the unchanged-relative clause at `./local/file.txt`, and
the prepend clause at the bare relative `file.txt`. -/
theorem claim_C4_witness :
    PathMapper.map false [⟨"/opt/application", "./app"⟩] "/usr/local/bin/script.sh"
      = "/usr/local/bin/script.sh" ∧
    PathMapper.map false [] "./local/file.txt" = "./local/file.txt" ∧
    PathMapper.map false [⟨"/opt/application", "./app"⟩] "file.txt"
      = "./" ++ "file.txt" :=
  ⟨(claim_C4_unmatched_behaviour.1 false [⟨"/opt/application", "./app"⟩]
      "/usr/local/bin/script.sh" (by decide)).1 (Or.inl (by decide)),
   (claim_C4_unmatched_behaviour.1 false [] "./local/file.txt"
      (by decide)).2.1 (Or.inl (by decide)),
   (claim_C4_unmatched_behaviour.1 false [⟨"/opt/application", "./app"⟩]
      "file.txt" (by decide)).2.2 (by decide) (by decide) (by decide)
      (by decide) (by decide)⟩

/-- Claim C5, counterexample: constructing a `PathMapper` whose rule has
the Windows-style `from` `C:\app` does not fail — the constructor stores
the list and succeeds. -/
theorem claim_C5_counterexample :
    PathMapper.construct [⟨"C:\\app", "./x"⟩] = Except.ok [⟨"C:\\app", "./x"⟩] := rfl

/-- Claim C5 (corrected): the `PathMapper` constructor (the entry point
`src/cli.ts` actually uses) performs no validation and always succeeds,
even on a Windows-style `from`; such a rule is not silently dead either —
`map` separator-normalizes both sides, so the rule still matches
Windows-style inputs.  Only the `fromConfig` factory of the alternate
revision validates `from` fields, and that factory is not on the CLI's
construction path. -/
theorem claim_C5_construct_never_fails :
    (∀ mappings : List PathMapping,
      PathMapper.construct mappings = Except.ok mappings)
    ∧ PathMapper.map false [⟨"C:\\Production\\App", ".\\app"⟩]
        "C:\\Production\\App\\src\\index.js" = "./app/src/index.js"
    ∧ exceptIsError (PathMapper.fromConfigValidate [⟨"C:\\app", "./x"⟩]) = true :=
  ⟨fun _ => rfl, by decide, by decide⟩

/-! ## Lemmas about the tree renderer's root loop -/

theorem mem_insertByKey (key : α → String) (x a : α) :
    ∀ l : List α, a ∈ insertByKey key x l ↔ a = x ∨ a ∈ l := by
  intro l
  induction l with
  | nil => simp [insertByKey]
  | cons y ys ih =>
    by_cases hlt : ltS (key x) (key y) = true
    · simp [insertByKey, hlt, List.mem_cons]
    · simp only [insertByKey, hlt, Bool.false_eq_true, if_false, List.mem_cons, ih]
      tauto

theorem mem_sortByKey (key : α → String) (a : α) :
    ∀ l : List α, a ∈ sortByKey key l ↔ a ∈ l := by
  intro l
  induction l with
  | nil => simp [sortByKey]
  | cons y ys ih => simp [sortByKey, mem_insertByKey, ih]

theorem topLoop_eq_nil (fuel : Nat) (deps : DepsMap) (total : Nat) :
    ∀ (idx : Nat) (tops : List String),
      (∀ p ∈ tops, mapHas deps p = false) →
      topLoop fuel deps total idx tops = [] := by
  intro idx tops
  induction tops generalizing idx with
  | nil => intro _; rfl
  | cons p rest ih =>
    intro h
    have hp : mapHas deps p = false := h p (List.mem_cons_self p rest)
    rw [topLoop, hp]
    simp only [Bool.false_eq_true, if_false, List.nil_append]
    exact ih (idx + 1) (fun q hq => h q (List.mem_cons_of_mem p hq))

/-- Claim C10 (confirmed): a root that is not a key of the dependency map
is silently omitted by the renderer — if no root is a key the whole tree
is empty, a missing root among present ones contributes no line, and in
particular an entry point written as the relative `x` (resolved key
`/p/x`) yields no tree at all because the CLI passes the as-written
path as the root. -/
theorem claim_C10_missing_roots_omitted :
    (∀ (fuel : Nat) (deps : DepsMap) (selected : List String),
       (∀ r ∈ selected, mapHas deps r = false) →
       visualizeDependencyGraph fuel deps selected = "")
    ∧ visualizeLines 5 [("/k", [])] ["/k", "/m"] = ["[E] /k", ""]
    ∧ relEntryRun.deps = [("/p/x", [])]
    ∧ visualizeLines 5 relEntryRun.deps ["x"] = [] := by
  refine ⟨?_, by decide, by decide, by decide⟩
  intro fuel deps selected h
  unfold visualizeDependencyGraph visualizeLines
  rw [topLoop_eq_nil]
  · rfl
  · intro p hp
    exact h p ((mem_sortByKey id p selected).mp hp)

/-- Witness for C10: the all-roots-missing clause at a concrete graph and
root list. -/
theorem claim_C10_witness :
    visualizeDependencyGraph 5 [("/k", [])] ["/m", "/n"] = "" :=
  claim_C10_missing_roots_omitted.1 5 [("/k", [])] ["/m", "/n"] (by decide)

/-! ## Termination of the tree renderer (fuel stabilization) -/

theorem mapGet_mem_keys (deps : DepsMap) (p : String) (l : List FileDependency)
    (h : mapGet deps p = some l) : p ∈ deps.map Prod.fst := by
  unfold mapGet at h
  cases hf : deps.find? (fun q => q.1 = p) with
  | none => rw [hf] at h; cases h
  | some q =>
    have hq := List.find?_some hf
    have hmem := List.mem_of_find?_eq_some hf
    have : q.1 = p := by simpa using hq
    subst this
    exact List.mem_map.mpr ⟨q, hmem, rfl⟩

theorem graphBound_cons_lt (deps : DepsMap) (p : String) (anc : List String)
    (hk : p ∈ deps.map Prod.fst) (hp : anc.contains p = false) :
    graphBound deps (p :: anc) < graphBound deps anc := by
  unfold graphBound
  have hmono : ∀ k, (! (p :: anc).contains k) = true → (! anc.contains k) = true := by
    intro k h
    simp only [Bool.not_eq_true'] at h ⊢
    simp only [List.contains_cons, Bool.or_eq_false_iff] at h
    exact h.2
  have hsub := List.monotone_filter_right (deps.map Prod.fst) hmono
  rcases Nat.lt_or_ge
      (((deps.map Prod.fst).filter (fun k => ! (p :: anc).contains k)).length)
      (((deps.map Prod.fst).filter (fun k => ! anc.contains k)).length) with hlt | hge
  · exact hlt
  · exfalso
    have heq := hsub.eq_of_length (Nat.le_antisymm hsub.length_le hge)
    have hpin : p ∈ (deps.map Prod.fst).filter (fun k => ! anc.contains k) := by
      refine List.mem_filter.mpr ⟨hk, ?_⟩
      simpa using hp
    rw [← heq] at hpin
    have := (List.mem_filter.mp hpin).2
    simp at this

theorem buildTree_stable (deps : DepsMap) :
    ∀ f1 : Nat, ∀ (f2 : Nat) (p : String) (action : FileAction)
      (ft : Option String) (ind : Nat) (pre : String) (anc : List String),
      graphBound deps anc + 1 ≤ f1 → graphBound deps anc + 1 ≤ f2 →
      buildTree deps f1 p action ft ind pre anc
        = buildTree deps f2 p action ft ind pre anc := by
  intro f1
  induction f1 using Nat.strong_induction_on with
  | _ f1 ih =>
    intro f2 p action ft ind pre anc h1 h2
    cases f1 with
    | zero => omega
    | succ g1 =>
      cases f2 with
      | zero => omega
      | succ g2 =>
        rw [buildTree, buildTree]
        by_cases hc : anc.contains p = true
        · rw [if_pos hc, if_pos hc]
        · rw [if_neg hc, if_neg hc]
          dsimp only
          cases hg : mapGet deps p with
          | none => rfl
          | some ds =>
            dsimp only
            by_cases hds : ds = []
            · rw [if_pos hds, if_pos hds]
            · rw [if_neg hds, if_neg hds]
              congr 1
              apply List.flatMap_congr
              intro pair _
              have hc' : anc.contains p = false := by simpa using hc
              have hkey : p ∈ deps.map Prod.fst := mapGet_mem_keys deps p ds hg
              have hlt : graphBound deps (p :: anc) < graphBound deps anc :=
                graphBound_cons_lt deps p anc hkey hc'
              exact ih g1 (by omega) g2 pair.2.path pair.2.action pair.2.fileType
                (ind + 1) (childPrefix ind pre) (p :: anc) (by omega) (by omega)

theorem topLoop_stable (deps : DepsMap) (f1 f2 : Nat) (total : Nat)
    (h1 : graphBound deps [] + 1 ≤ f1) (h2 : graphBound deps [] + 1 ≤ f2) :
    ∀ (idx : Nat) (tops : List String),
      topLoop f1 deps total idx tops = topLoop f2 deps total idx tops := by
  intro idx tops
  induction tops generalizing idx with
  | nil => rfl
  | cons p rest ih =>
    rw [topLoop, topLoop]
    rw [buildTree_stable deps f1 f2 p FileAction.execute none 0 "" [] h1 h2]
    rw [ih (idx + 1)]

/-- Claim C9 (confirmed): the renderer's output is independent of the
recursion budget once the budget exceeds the number of graph keys — the
recursion on any graph, cyclic ones included, is finite — and on the
concrete cycle `/a → /b → /a` rooted at `/a` the back-edge line carries
the `[CIRCULAR]` marker and `/a`'s children are not expanded again
beneath it. -/
theorem claim_C9_renderer_terminates :
    (∀ (deps : DepsMap) (selected : List String) (f1 f2 : Nat),
       graphBound deps [] + 1 ≤ f1 → graphBound deps [] + 1 ≤ f2 →
       visualizeDependencyGraph f1 deps selected
         = visualizeDependencyGraph f2 deps selected)
    ∧ visualizeLines 3 cycleDeps ["/a"]
        = ["[E] /a", "|__ [E] /b", "    |__ [E] /a [CIRCULAR]"] := by
  refine ⟨?_, by decide⟩
  intro deps selected f1 f2 h1 h2
  unfold visualizeDependencyGraph visualizeLines
  rw [topLoop_stable deps f1 f2 _ h1 h2]

/-- Witness for C9: the stabilization clause applied to the concrete
cyclic graph at budgets 3 and 50. -/
theorem claim_C9_witness :
    graphBound cycleDeps [] + 1 ≤ 3 ∧
    visualizeDependencyGraph 3 cycleDeps ["/a"]
      = visualizeDependencyGraph 50 cycleDeps ["/a"] :=
  ⟨by decide,
   claim_C9_renderer_terminates.1 cycleDeps ["/a"] 3 50 (by decide) (by decide)⟩

/-! ## Character arithmetic for the case conversions -/

theorem char_eq_of_toNat_eq {a b : Char} (h : a.toNat = b.toNat) : a = b := by
  have h2 : a.val = b.val := UInt32.toNat.inj h
  exact Char.eq_of_val_eq h2

theorem toNat_charOfNat {n : Nat} (h : n.isValidChar) : (Char.ofNat n).toNat = n := by
  unfold Char.ofNat
  rw [dif_pos h]
  rfl

theorem isAsciiAlpha_iff {c : Char} :
    isAsciiAlpha c = true ↔
      (65 ≤ c.toNat ∧ c.toNat ≤ 90) ∨ (97 ≤ c.toNat ∧ c.toNat ≤ 122) := by
  unfold isAsciiAlpha
  simp only [Bool.or_eq_true, Bool.and_eq_true, decide_eq_true_eq]
  exact Iff.rfl

theorem lowerAscii_of_upper {c : Char} (h1 : 65 ≤ c.toNat) (h2 : c.toNat ≤ 90) :
    (lowerAscii c).toNat = c.toNat + 32 := by
  unfold lowerAscii
  rw [if_pos (⟨h1, h2⟩ : 'A' ≤ c ∧ c ≤ 'Z')]
  exact toNat_charOfNat (Or.inl (by omega))

theorem lowerAscii_of_not_upper {c : Char} (h : ¬(65 ≤ c.toNat ∧ c.toNat ≤ 90)) :
    lowerAscii c = c := by
  unfold lowerAscii
  exact if_neg h

theorem lowerAscii_range {c : Char} (h : isAsciiAlpha c = true) :
    97 ≤ (lowerAscii c).toNat ∧ (lowerAscii c).toNat ≤ 122 := by
  rcases isAsciiAlpha_iff.mp h with ⟨h1, h2⟩ | ⟨h1, h2⟩
  · rw [lowerAscii_of_upper h1 h2]; omega
  · rw [lowerAscii_of_not_upper (by omega)]; omega

theorem lowerAscii_ne_slash {c : Char} (h : isAsciiAlpha c = true) :
    lowerAscii c ≠ '/' := by
  intro he
  have hr := lowerAscii_range h
  rw [he] at hr
  exact absurd hr (by decide)

theorem lowerAscii_ne_bslash {c : Char} (h : isAsciiAlpha c = true) :
    lowerAscii c ≠ '\\' := by
  intro he
  have hr := lowerAscii_range h
  rw [he] at hr
  exact absurd hr (by decide)

theorem alpha_ne_bslash {c : Char} (h : isAsciiAlpha c = true) : c ≠ '\\' := by
  intro he
  rcases isAsciiAlpha_iff.mp h with ⟨h1, h2⟩ | ⟨h1, h2⟩ <;>
    (rw [he] at h1 h2; revert h1 h2; decide)

theorem upperAscii_toNat {d : Char} (h1 : 97 ≤ d.toNat) (h2 : d.toNat ≤ 122) :
    (upperAscii d).toNat = d.toNat - 32 := by
  unfold upperAscii
  rw [if_pos (⟨h1, h2⟩ : 'a' ≤ d ∧ d ≤ 'z')]
  exact toNat_charOfNat (Or.inl (by omega))

theorem upperAscii_isAlpha {d : Char} (h1 : 'a' ≤ d) (h2 : d ≤ 'z') :
    isAsciiAlpha (upperAscii d) = true := by
  have h1' : 97 ≤ d.toNat := h1
  have h2' : d.toNat ≤ 122 := h2
  have ht := upperAscii_toNat h1' h2'
  exact isAsciiAlpha_iff.mpr (Or.inl (by omega))

theorem upperAscii_ne_bslash {d : Char} (h1 : 'a' ≤ d) (h2 : d ≤ 'z') :
    upperAscii d ≠ '\\' := by
  have h1' : 97 ≤ d.toNat := h1
  have h2' : d.toNat ≤ 122 := h2
  have ht := upperAscii_toNat h1' h2'
  intro he
  rw [he] at ht
  have : ('\\' : Char).toNat = 92 := rfl
  omega

theorem lowerAscii_upperAscii {d : Char} (h1 : 'a' ≤ d) (h2 : d ≤ 'z') :
    lowerAscii (upperAscii d) = d := by
  have h1' : 97 ≤ d.toNat := h1
  have h2' : d.toNat ≤ 122 := h2
  have ht := upperAscii_toNat h1' h2'
  apply char_eq_of_toNat_eq
  rw [lowerAscii_of_upper (by omega) (by omega), ht]
  omega

theorem bslToSlash_ne_bslash (c : Char) : bslToSlash c ≠ '\\' := by
  unfold bslToSlash
  split
  · decide
  · assumption

theorem bslToSlash_slashToBsl {c : Char} (h : c ≠ '\\') :
    bslToSlash (slashToBsl c) = c := by
  unfold bslToSlash slashToBsl
  by_cases hc : c = '/'
  · simp [hc]
  · rw [if_neg hc, if_neg h]

theorem slashToBsl_sep_iff {c : Char} (h : c ≠ '\\') :
    (slashToBsl c = '/' ∨ slashToBsl c = '\\') ↔ c = '/' := by
  unfold slashToBsl
  by_cases hc : c = '/'
  · simp [hc]
  · rw [if_neg hc]
    simp [hc, h]

/-! ## Properties of `collapseSlashes` -/

theorem collapse_ne_nil : ∀ l : List Char, l ≠ [] → collapseSlashes l ≠ [] := by
  intro l
  induction l with
  | nil => intro h; exact absurd rfl h
  | cons a t ih =>
    intro _
    cases t with
    | nil => simp [collapseSlashes]
    | cons b r =>
      rw [collapseSlashes]
      by_cases hab : a = '/' ∧ b = '/'
      · rw [if_pos hab]; exact ih (by simp)
      · rw [if_neg hab]; simp

theorem collapse_head? : ∀ l : List Char, (collapseSlashes l).head? = l.head? := by
  intro l
  induction l with
  | nil => rfl
  | cons a t ih =>
    cases t with
    | nil => rfl
    | cons b r =>
      rw [collapseSlashes]
      by_cases hab : a = '/' ∧ b = '/'
      · rw [if_pos hab, ih]
        simp [hab.1, hab.2]
      · rw [if_neg hab]
        rfl

theorem collapse_getLast? : ∀ l : List Char,
    (collapseSlashes l).getLast? = l.getLast? := by
  intro l
  induction l with
  | nil => rfl
  | cons a t ih =>
    cases t with
    | nil => rfl
    | cons b r =>
      rw [collapseSlashes]
      by_cases hab : a = '/' ∧ b = '/'
      · rw [if_pos hab, ih, List.getLast?_cons_cons]
      · rw [if_neg hab]
        have hne : collapseSlashes (b :: r) ≠ [] := collapse_ne_nil _ (by simp)
        rw [List.getLast?_cons_cons]
        rw [← ih]
        cases hcb : collapseSlashes (b :: r) with
        | nil => exact absurd hcb hne
        | cons x xs => rw [List.getLast?_cons_cons]

theorem collapse_sublist : ∀ l : List Char, List.Sublist (collapseSlashes l) l := by
  intro l
  induction l with
  | nil => exact List.Sublist.refl _
  | cons a t ih =>
    cases t with
    | nil => exact List.Sublist.refl _
    | cons b r =>
      rw [collapseSlashes]
      by_cases hab : a = '/' ∧ b = '/'
      · rw [if_pos hab]
        exact List.Sublist.cons a ih
      · rw [if_neg hab]
        exact List.Sublist.cons₂ a ih

theorem collapse_chain' : ∀ l : List Char,
    List.Chain' sepOk (collapseSlashes l) := by
  intro l
  induction l with
  | nil => exact List.chain'_nil
  | cons a t ih =>
    cases t with
    | nil => simp [collapseSlashes, List.chain'_singleton]
    | cons b r =>
      rw [collapseSlashes]
      by_cases hab : a = '/' ∧ b = '/'
      · rw [if_pos hab]; exact ih
      · rw [if_neg hab]
        rw [List.chain'_cons']
        refine ⟨?_, ih⟩
        intro h hh
        rw [collapse_head?] at hh
        simp only [List.head?_cons, Option.mem_def, Option.some.injEq] at hh
        subst hh
        exact hab

theorem collapse_eq_self_of_chain' : ∀ l : List Char,
    List.Chain' sepOk l → collapseSlashes l = l := by
  intro l
  induction l with
  | nil => intro _; rfl
  | cons a t ih =>
    intro h
    cases t with
    | nil => rfl
    | cons b r =>
      rw [List.chain'_cons] at h
      rw [collapseSlashes, if_neg h.1, ih h.2]

/-! ## Properties of `preNormalize` and `toUnixPathL` -/

theorem ensureLeadingSlash_head? (l : List Char) :
    (ensureLeadingSlash l).head? = some '/' := by
  unfold ensureLeadingSlash
  by_cases h : l.head? = some '/'
  · rw [if_pos h]; exact h
  · rw [if_neg h]; rfl

theorem ensureLeadingSlash_getLast? (l : List Char) (h : l ≠ []) :
    (ensureLeadingSlash l).getLast? = l.getLast? := by
  unfold ensureLeadingSlash
  by_cases hh : l.head? = some '/'
  · rw [if_pos hh]
  · rw [if_neg hh]
    cases l with
    | nil => exact absurd rfl h
    | cons x xs => rw [List.getLast?_cons_cons]

theorem ensureLeadingSlash_mem {c : Char} (l : List Char) (hc : c ≠ '/')
    (h : c ∉ l) : c ∉ ensureLeadingSlash l := by
  unfold ensureLeadingSlash
  by_cases hh : l.head? = some '/'
  · rw [if_pos hh]; exact h
  · rw [if_neg hh]
    intro hmem
    rcases List.mem_cons.mp hmem with rfl | hmem
    · exact hc rfl
    · exact h hmem

theorem preNormalize_head? (l : List Char) :
    (preNormalize l).head? = some '/' := by
  unfold preNormalize
  split
  · split
    · rfl
    · exact ensureLeadingSlash_head? _
  · split
    · rfl
    · exact ensureLeadingSlash_head? _

theorem preNormalize_getLast? (l : List Char) (hne : l ≠ [])
    (h : l.getLast? = some '/') : (preNormalize l).getLast? = some '/' := by
  unfold preNormalize
  split
  · rename_i c rest
    split
    · cases rest with
      | nil => simp [List.getLast?_cons_cons] at h
      | cons x xs =>
        rw [List.getLast?_cons_cons] at h ⊢
        rw [List.getLast?_cons_cons] at h
        rwa [List.getLast?_cons_cons]
    · rw [ensureLeadingSlash_getLast? _ hne]; exact h
  · split
    · rename_i rst hno
      cases rst with
      | nil => rfl
      | cons x xs =>
        rw [List.getLast?_cons_cons] at h
        rw [List.getLast?_cons_cons] at h
        rwa [List.getLast?_cons_cons]
    · rw [ensureLeadingSlash_getLast? _ hne]; exact h

theorem preNormalize_no_bslash (l : List Char) (h : '\\' ∉ l) :
    '\\' ∉ preNormalize l := by
  unfold preNormalize
  split
  · rename_i c rest
    split
    · rename_i halpha
      intro hmem
      rcases List.mem_cons.mp hmem with heq | hmem
      · exact absurd heq.symm (by decide)
      · rcases List.mem_cons.mp hmem with heq | hmem
        · exact lowerAscii_ne_bslash halpha heq.symm
        · exact h (by simp [hmem])
    · exact ensureLeadingSlash_mem _ (by decide) h
  · split
    · intro hmem
      rcases List.mem_cons.mp hmem with heq | hmem
      · exact absurd heq.symm (by decide)
      · exact h (by simp [hmem])
    · exact ensureLeadingSlash_mem _ (by decide) h

theorem preNormalize_drive_eq (c : Char) (rest : List Char) :
    preNormalize (c :: ':' :: rest)
      = if isAsciiAlpha c then '/' :: lowerAscii c :: rest
        else ensureLeadingSlash (c :: ':' :: rest) := rfl

theorem preNormalize_dotSlash_eq (rest : List Char) :
    preNormalize ('.' :: '/' :: rest) = '/' :: rest := rfl

theorem dropLast_head? (l : List Char) (h : 1 < l.length) :
    l.dropLast.head? = l.head? := by
  cases l with
  | nil => simp at h
  | cons a t =>
    cases t with
    | nil => simp at h
    | cons b r => rfl

theorem map_bslToSlash_no_bslash (l : List Char) :
    '\\' ∉ l.map bslToSlash := by
  intro hmem
  rcases List.mem_map.mp hmem with ⟨c, _, hc⟩
  exact bslToSlash_ne_bslash c hc

/-- The canonical shape of `toUnixPath`'s output: nonempty, starts with
`/`, has no backslash and no two adjacent slashes. -/
theorem toUnixPathL_shape (input : List Char) :
    (toUnixPathL input).head? = some '/'
    ∧ '\\' ∉ toUnixPathL input
    ∧ List.Chain' sepOk (toUnixPathL input) := by
  by_cases hin : input = []
  · subst hin
    refine ⟨rfl, by decide, ?_⟩
    simp [toUnixPathL, List.chain'_singleton]
  · rw [toUnixPathL, if_neg hin]
    dsimp only
    have hh : (collapseSlashes (preNormalize (input.map bslToSlash))).head? = some '/' := by
      rw [collapse_head?]; exact preNormalize_head? _
    have hb : '\\' ∉ collapseSlashes (preNormalize (input.map bslToSlash)) := by
      intro hmem
      exact preNormalize_no_bslash _ (map_bslToSlash_no_bslash input)
        ((collapse_sublist _).mem hmem)
    have hch : List.Chain' sepOk (collapseSlashes (preNormalize (input.map bslToSlash))) :=
      collapse_chain' _
    by_cases hcond : 1 < (collapseSlashes (preNormalize (input.map bslToSlash))).length
        ∧ (collapseSlashes (preNormalize (input.map bslToSlash))).getLast? = some '/'
        ∧ hadTrailingSep input = false
    · rw [if_pos hcond]
      refine ⟨?_, ?_, ?_⟩
      · rw [dropLast_head? _ hcond.1]; exact hh
      · intro hmem
        exact hb (( List.dropLast_prefix _).sublist.mem hmem)
      · exact List.Chain'.prefix hch ( List.dropLast_prefix _)
    · rw [if_neg hcond]
      exact ⟨hh, hb, hch⟩

theorem toUnixPathL_ne_nil (input : List Char) : toUnixPathL input ≠ [] := by
  intro h
  have := (toUnixPathL_shape input).1
  rw [h] at this
  cases this

/-- The trailing-separator behaviour of `toUnixPath`: the output ends
with `/` exactly when the input ended with a separator or the output is
the bare root. -/
theorem toUnixPathL_trailing (input : List Char) :
    (toUnixPathL input).getLast? = some '/' ↔
      (input.getLast? = some '/' ∨ input.getLast? = some '\\'
        ∨ toUnixPathL input = ['/']) := by
  by_cases hin : input = []
  · subst hin
    constructor
    · intro _; exact Or.inr (Or.inr rfl)
    · intro _; rfl
  · have hmapne : input.map bslToSlash ≠ [] := by simpa using hin
    rw [toUnixPathL, if_neg hin]
    dsimp only
    have hh : (collapseSlashes (preNormalize (input.map bslToSlash))).head? = some '/' := by
      rw [collapse_head?]; exact preNormalize_head? _
    have hlastpres : hadTrailingSep input = true →
        (collapseSlashes (preNormalize (input.map bslToSlash))).getLast? = some '/' := by
      intro hhad
      rw [collapse_getLast?]
      apply preNormalize_getLast? _ hmapne
      rw [List.getLast?_map]
      simp only [hadTrailingSep, Bool.or_eq_true, decide_eq_true_eq] at hhad
      rcases hhad with h | h
      · rw [h]; rfl
      · rw [h]; rfl
    by_cases hcond : 1 < (collapseSlashes (preNormalize (input.map bslToSlash))).length
        ∧ (collapseSlashes (preNormalize (input.map bslToSlash))).getLast? = some '/'
        ∧ hadTrailingSep input = false
    · rw [if_pos hcond]
      obtain ⟨hlen, hlast, hhad⟩ := hcond
      have hne : collapseSlashes (preNormalize (input.map bslToSlash)) ≠ [] := by
        intro h
        rw [h] at hlen
        simp at hlen
      have hch : List.Chain' sepOk (collapseSlashes (preNormalize (input.map bslToSlash))) :=
        collapse_chain' _
      have hds : (collapseSlashes (preNormalize (input.map bslToSlash))).dropLast.getLast?
          ≠ some '/' := by
        intro hcontra
        have hsplit := List.dropLast_append_getLast hne
        have hglast : (collapseSlashes (preNormalize (input.map bslToSlash))).getLast hne = '/' := by
          have := List.getLast?_eq_getLast _ hne
          rw [this] at hlast
          exact (Option.some.injEq _ _ ▸ hlast : _)
        rw [← hsplit] at hch
        rw [List.chain'_append] at hch
        have := hch.2.2 '/' hcontra ((collapseSlashes (preNormalize (input.map bslToSlash))).getLast hne) (by simp)
        rw [hglast] at this
        exact this ⟨rfl, rfl⟩
      simp only [hadTrailingSep, Bool.or_eq_true, decide_eq_true_eq, Bool.or_eq_false_iff,
        decide_eq_false_iff_not] at hhad
      constructor
      · intro h; exact absurd h hds
      · rintro (h | h | h)
        · exact absurd h hhad.1
        · exact absurd h hhad.2
        · rw [h] at hds
          exact absurd rfl hds
    · rw [if_neg hcond]
      constructor
      · intro hlast
        by_cases hhad : hadTrailingSep input = true
        · simp only [hadTrailingSep, Bool.or_eq_true, decide_eq_true_eq] at hhad
          rcases hhad with h | h
          · exact Or.inl h
          · exact Or.inr (Or.inl h)
        · have hhad' : hadTrailingSep input = false := by simpa using hhad
          have hlen : ¬ 1 < (collapseSlashes (preNormalize (input.map bslToSlash))).length := by
            intro hl
            exact hcond ⟨hl, hlast, hhad'⟩
          refine Or.inr (Or.inr ?_)
          cases hn : collapseSlashes (preNormalize (input.map bslToSlash)) with
          | nil => rw [hn] at hh; cases hh
          | cons x xs =>
            cases xs with
            | nil =>
              rw [hn] at hh
              simp only [List.head?_cons, Option.some.injEq] at hh
              rw [hh]
            | cons y ys =>
              rw [hn] at hlen
              simp at hlen
      · rintro (h | h | h)
        · apply hlastpres
          simp [hadTrailingSep, h]
        · apply hlastpres
          simp [hadTrailingSep, h]
        · rw [h]; rfl

/-- The drive-letter behaviour of `toUnixPath`: an input starting with an
ASCII drive letter and a colon yields an output starting with `/`
followed by the lower-cased drive letter. -/
theorem toUnixPathL_drive (c : Char) (rest : List Char)
    (hc : isAsciiAlpha c = true) :
    (toUnixPathL (c :: ':' :: rest)).take 2 = ['/', lowerAscii c] := by
  have hbc : bslToSlash c = c := by
    unfold bslToSlash
    rw [if_neg (alpha_ne_bslash hc)]
  have hcolon : bslToSlash ':' = ':' := rfl
  have hxslash : lowerAscii c ≠ '/' := lowerAscii_ne_slash hc
  rw [toUnixPathL, if_neg (by simp)]
  dsimp only
  rw [List.map_cons, List.map_cons, hbc, hcolon, preNormalize_drive_eq, if_pos hc]
  have htake : (collapseSlashes ('/' :: lowerAscii c :: rest.map bslToSlash)).take 2
      = ['/', lowerAscii c] := by
    rw [collapseSlashes, if_neg (by simp [hxslash])]
    cases hcr : collapseSlashes (lowerAscii c :: rest.map bslToSlash) with
    | nil => exact absurd hcr (collapse_ne_nil _ (by simp))
    | cons y ys =>
      have hy : y = lowerAscii c := by
        have := collapse_head? (lowerAscii c :: rest.map bslToSlash)
        rw [hcr] at this
        simpa using this
      rw [hy]
      rfl
  have hlen2 : 2 ≤ (collapseSlashes ('/' :: lowerAscii c :: rest.map bslToSlash)).length := by
    have hlen := congrArg List.length htake
    rw [List.length_take] at hlen
    rcases Nat.le_total 2 (collapseSlashes ('/' :: lowerAscii c :: rest.map bslToSlash)).length with h | h
    · exact h
    · rw [Nat.min_eq_right h] at hlen
      simp only [List.length_cons, List.length_singleton] at hlen
      omega
  by_cases hcond : 1 < (collapseSlashes ('/' :: lowerAscii c :: rest.map bslToSlash)).length
      ∧ (collapseSlashes ('/' :: lowerAscii c :: rest.map bslToSlash)).getLast? = some '/'
      ∧ hadTrailingSep (c :: ':' :: rest) = false
  · rw [if_pos hcond]
    have hlen3 : 3 ≤ (collapseSlashes ('/' :: lowerAscii c :: rest.map bslToSlash)).length := by
      rcases Nat.lt_or_ge 2 (collapseSlashes ('/' :: lowerAscii c :: rest.map bslToSlash)).length with h | h
      · omega
      · exfalso
        have hlenEq : (collapseSlashes ('/' :: lowerAscii c :: rest.map bslToSlash)).length = 2 := by omega
        have hfull : collapseSlashes ('/' :: lowerAscii c :: rest.map bslToSlash)
            = ['/', lowerAscii c] := by
          rw [← htake]
          rw [← hlenEq]
          exact (List.take_length _).symm
        rw [hfull] at hcond
        simp only [List.getLast?_cons_cons] at hcond
        have := hcond.2.1
        simp only [List.getLast?_singleton, Option.some.injEq] at this
        exact hxslash this
    rw [List.dropLast_eq_take, List.take_take]
    rw [Nat.min_def, if_pos (by omega)]
    exact htake
  · rw [if_neg hcond]
    exact htake

/-- Claim C8, counterexample: two clauses of the claimed invariant fail
as literally stated.  `toUnixPath "" = "/"` ends with a separator though
the empty input ended with none (the claimed iff requires otherwise),
and the drive-relative input `C:x` maps to `/cx`, in which the drive
letter is not a path segment of its own. -/
theorem claim_C8_counterexample :
    ¬ claimedTrailingProp "" ∧ toUnixPath "" = "/"
    ∧ ¬ claimedDriveSegmentProp "C:x" ∧ toUnixPath "C:x" = "/cx" := by
  refine ⟨by decide, by decide, ?_, by decide⟩
  intro hcl
  rcases hcl 'C' ['x'] (by decide) (by decide) with h | h
  · exact absurd h (by decide)
  · exact absurd h (by decide)

/-- Claim C8 (corrected): every canonical path starts with `/`, contains
no backslash and no two adjacent slashes; a drive-letter input is
rewritten with the lower-cased drive letter immediately after the leading
`/`; and the output ends with `/` exactly when the original input ended
with `/` or `\` *or* the output is the bare root (the root always carries
its slash, and `C:x`-style inputs fuse the drive letter with the
following segment). -/
theorem claim_C8_canonical_invariants :
    ∀ s : String,
      (toUnixPath s).data.head? = some '/'
      ∧ '\\' ∉ (toUnixPath s).data
      ∧ List.Chain' sepOk (toUnixPath s).data
      ∧ ((toUnixPath s).data.getLast? = some '/' ↔
          (s.data.getLast? = some '/' ∨ s.data.getLast? = some '\\'
            ∨ toUnixPath s = "/"))
      ∧ (∀ (c : Char) (rest : List Char),
          s.data = c :: ':' :: rest → isAsciiAlpha c = true →
          (toUnixPath s).data.take 2 = ['/', lowerAscii c]) := by
  intro s
  have hshape := toUnixPathL_shape s.data
  have htr := toUnixPathL_trailing s.data
  refine ⟨hshape.1, hshape.2.1, hshape.2.2, ?_, ?_⟩
  · have hconv : (toUnixPath s = "/") ↔ toUnixPathL s.data = ['/'] := by
      rw [String.ext_iff]
      exact Iff.rfl
    rw [hconv]
    exact htr
  · intro c rest hdata hc
    have hd := toUnixPathL_drive c rest hc
    show (toUnixPathL s.data).take 2 = _
    rw [hdata]
    exact hd

/-- Witness for C8: the drive clause applied to `C:\Users`. -/
theorem claim_C8_witness :
    (toUnixPath "C:\\Users").data.take 2 = ['/', lowerAscii 'C'] :=
  (claim_C8_canonical_invariants "C:\\Users").2.2.2.2 'C' "\\Users".data
    (by decide) (by decide)

/-! ## The round trip `toUnixPath ∘ fromUnixPath ∘ toUnixPath` -/

theorem map_bsl_slb (l : List Char) (h : '\\' ∉ l) :
    (l.map slashToBsl).map bslToSlash = l := by
  induction l with
  | nil => rfl
  | cons c t ih =>
    rw [List.map_cons, List.map_cons, bslToSlash_slashToBsl (fun hc => h (by simp [hc])),
      ih (fun hm => h (List.mem_cons_of_mem _ hm))]

theorem fromUnixWinElse_roundtrip (tail : List Char)
    (hb : '\\' ∉ '/' :: tail) (hch : List.Chain' sepOk ('/' :: tail)) :
    toUnixPathL (fromUnixWinElse ('/' :: tail)) = '/' :: tail := by
  unfold fromUnixWinElse
  dsimp only
  rw [List.map_cons]
  have h1 : slashToBsl '/' = '\\' := rfl
  rw [h1, if_pos (show ('\\' :: List.map slashToBsl tail).head? = some '\\' from rfl)]
  rw [toUnixPathL, if_neg (by simp)]
  dsimp only
  rw [List.map_cons, List.map_cons]
  have h2 : bslToSlash '.' = '.' := rfl
  have h3 : bslToSlash '\\' = '/' := rfl
  have hbt : '\\' ∉ tail := fun hm => hb (List.mem_cons_of_mem _ hm)
  rw [h2, h3, map_bsl_slb tail hbt, preNormalize_dotSlash_eq,
    collapse_eq_self_of_chain' _ hch]
  rw [if_neg ?cond]
  case cond =>
    rintro ⟨-, hlast, hhad⟩
    have : hadTrailingSep ('.' :: '\\' :: tail.map slashToBsl) = true := by
      cases tail with
      | nil => rfl
      | cons x xs =>
        rw [List.getLast?_cons_cons] at hlast
        unfold hadTrailingSep
        rw [List.getLast?_cons_cons, List.map_cons, List.getLast?_cons_cons,
          ← List.map_cons, List.getLast?_map, hlast]
        decide
    rw [this] at hhad
    cases hhad

theorem drive_roundtrip (d : Char) (rest : List Char)
    (hd1 : 'a' ≤ d) (hd2 : d ≤ 'z')
    (hb : '\\' ∉ '/' :: d :: '/' :: rest)
    (hch : List.Chain' sepOk ('/' :: d :: '/' :: rest)) :
    toUnixPathL (upperAscii d :: ':' :: ('/' :: rest).map slashToBsl)
      = '/' :: d :: '/' :: rest := by
  rw [toUnixPathL, if_neg (by simp)]
  dsimp only
  rw [List.map_cons, List.map_cons]
  have h1 : bslToSlash (upperAscii d) = upperAscii d := by
    unfold bslToSlash
    rw [if_neg (upperAscii_ne_bslash hd1 hd2)]
  have h2 : bslToSlash ':' = ':' := rfl
  have hbr : '\\' ∉ ('/' :: rest) := by
    intro hm
    rcases List.mem_cons.mp hm with heq | hm2
    · exact absurd heq (by decide)
    · exact hb (by simp [hm2])
  rw [h1, h2, map_bsl_slb ('/' :: rest) hbr, preNormalize_drive_eq,
    if_pos (upperAscii_isAlpha hd1 hd2), lowerAscii_upperAscii hd1 hd2,
    collapse_eq_self_of_chain' _ hch]
  rw [if_neg ?cond]
  case cond =>
    rintro ⟨-, hlast, hhad⟩
    have : hadTrailingSep (upperAscii d :: ':' :: ('/' :: rest).map slashToBsl) = true := by
      unfold hadTrailingSep
      cases rest with
      | nil =>
        rw [List.getLast?_cons_cons]
        decide
      | cons x xs =>
        rw [List.getLast?_cons_cons, List.getLast?_cons_cons,
          List.getLast?_cons_cons] at hlast
        rw [List.getLast?_cons_cons, List.map_cons, List.getLast?_cons_cons,
          List.map_cons, List.getLast?_cons_cons, ← List.map_cons,
          List.getLast?_map, hlast]
        decide
    rw [this] at hhad
    cases hhad

theorem roundtrip_canonical (t : List Char) (hh : t.head? = some '/')
    (hb : '\\' ∉ t) (hch : List.Chain' sepOk t) :
    toUnixPathL (fromUnixPathWinL t) = t := by
  obtain ⟨tail, rfl⟩ : ∃ tail, t = '/' :: tail := by
    cases t with
    | nil => cases hh
    | cons x xs =>
      simp only [List.head?_cons, Option.some.injEq] at hh
      exact ⟨xs, by rw [hh]⟩
  have hdp : hasDrivePrefix ('/' :: tail) = false := by
    unfold hasDrivePrefix
    split
    · rename_i heq
      simp only [List.cons.injEq] at heq
      rw [← heq.1]
      decide
    · rfl
  have hunc : hasUNCPrefix ('/' :: tail) = false := by
    unfold hasUNCPrefix
    split
    · rename_i heq
      simp only [List.cons.injEq] at heq
      exact absurd heq.1 (by decide)
    · rfl
  rw [fromUnixPathWinL, if_neg (by simp), hdp, hunc]
  simp only [Bool.or_self, Bool.false_eq_true, if_false]
  unfold unixDriveSplit
  split
  · rename_i d rest heq
    by_cases hd : 'a' ≤ d ∧ d ≤ 'z'
    · rw [if_pos hd, heq]
      exact drive_roundtrip d rest hd.1 hd.2 (heq ▸ hb) (heq ▸ hch)
    · rw [if_neg hd, heq]
      exact fromUnixWinElse_roundtrip (d :: '/' :: rest) (heq ▸ hb) (heq ▸ hch)
  · exact fromUnixWinElse_roundtrip tail hb hch

/-- Claim C7 (confirmed): for every Windows-style input, converting to
canonical form, back to the Windows convention, and to canonical form
again is stable.  (The proof factors through the canonical shape of
`toUnixPath`'s output and holds for the Windows-targeted direction of
`fromUnixPath` regardless of the input's style.) -/
theorem claim_C7_roundtrip (p : String) (_h : isWindowsPath p = true) :
    toUnixPath (fromUnixPathWin (toUnixPath p)) = toUnixPath p := by
  have hshape := toUnixPathL_shape p.data
  have hrt := roundtrip_canonical (toUnixPathL p.data) hshape.1 hshape.2.1 hshape.2.2
  rw [String.ext_iff]
  exact hrt

/-- Witness for C7: the round trip at the Windows path `C:\Users\a`. -/
theorem claim_C7_witness :
    isWindowsPath "C:\\Users\\a" = true ∧
    toUnixPath (fromUnixPathWin (toUnixPath "C:\\Users\\a"))
      = toUnixPath "C:\\Users\\a" :=
  ⟨by decide, claim_C7_roundtrip "C:\\Users\\a" (by decide)⟩

end DepAgent


